import Mathlib

/-
Verification of the AQUAgpusph calculation-server runtime against its
specification.  The definitions below are shallow embeddings of the C++
source under `src/`:

  * `Tool.execute`        from `src/src/CalcServer/Tool.cpp`
  * `cbMPIRecvOffset`     from `src/src/CalcServer/MPISync.cpp` (cbMPIRecv)
  * `roundUp`             from `src/src/AuxiliarMethods.cpp`
  * `reductionSetup`      from `src/src/CalcServer/Reduction.cpp`
                          (Reduction::setup / Reduction::setupOpenCL)

Machine `unsigned int` values are modelled as `Nat`; a reduction modulo
`2 ^ 32` is written exactly where the source can overflow.  OpenCL events
and variables are modelled as opaque identifiers (`Nat`).
-/

/-! ## Variables, events and the registry of writing events -/

/-- A variable identifier (the registry key of a `InputOutput::Variable`). -/
abbrev Var := Nat

/-- An OpenCL event handle, modelled as an opaque identifier. -/
abbrev Event := Nat

/-- The per-variable writing event table of the registry: each variable has
at most one writing event. -/
abbrev Registry := Var → Option Event

/-- Modelled from the spec: `Variable::setEvent` (its body is not under
`src/`; only its caller `Tool::execute` is).  Publishing an event on a
variable replaces the writing event of that variable and touches no other
variable. -/
def setEvent (reg : Registry) (v : Var) (e : Event) : Registry :=
  fun w => if w = v then some e else reg w

/-! ## Tool::execute (src/src/CalcServer/Tool.cpp, lines 64-117)

A `Tool` keeps a single dependency list `_vars` (field `vars` below), set
by `Tool::setDependencies`; `Tool::getDependencies` returns it unchanged.
`Tool::execute` first returns immediately when `_once && (_n_iters > 0)`;
otherwise it calls the virtual `_execute`, and when the returned event is
not null it walks `getDependencies()` calling `setEvent` on each variable.
The returned out-event of `_execute` is a parameter here, since `_execute`
is virtual. -/

structure Tool where
  once : Bool
  n_iters : Nat
  vars : List Var

/-- Embedding of `Tool::execute` restricted to its effect on the writing
events of the registry (event retain and release, and the wall-clock
profiling, have no effect on the registry). -/
def Tool.execute (t : Tool) (result : Option Event) (reg : Registry) :
    Registry :=
  if t.once ∧ 0 < t.n_iters then reg
  else
    match result with
    | none => reg
    | some e => t.vars.foldl (fun r v => setEvent r v e) reg

lemma foldl_setEvent_not_mem (e : Event) (v : Var) :
    ∀ (l : List Var) (reg : Registry), v ∉ l →
      l.foldl (fun r w => setEvent r w e) reg v = reg v := by
  intro l
  induction l with
  | nil => intro reg _; rfl
  | cons a l ih =>
    intro reg hv
    rw [List.mem_cons, not_or] at hv
    rw [List.foldl_cons, ih _ hv.2]
    simp [setEvent, hv.1]

lemma foldl_setEvent_mem (e : Event) (v : Var) :
    ∀ (l : List Var) (reg : Registry), v ∈ l →
      l.foldl (fun r w => setEvent r w e) reg v = some e := by
  intro l
  induction l with
  | nil => intro reg hv; cases hv
  | cons a l ih =>
    intro reg hv
    rw [List.foldl_cons]
    by_cases h : v ∈ l
    · exact ih _ h
    · have hva : v = a := by
        rcases List.mem_cons.mp hv with h1 | h2
        · exact h1
        · exact absurd h2 h
      rw [foldl_setEvent_not_mem e v l _ h]
      simp [setEvent, hva]

/-- Claim C1: when `_execute` returns a non-null event `e`, `Tool.execute`
publishes `e` as the writing event of exactly the declared dependencies of
the tool (every declared variable receives `e` as its new writing event and
no other variable changes), and when `_execute` returns null the writing
event of every variable is left unchanged. -/
theorem Tool.execute_publishes_deps (t : Tool) (reg : Registry)
    (hskip : ¬(t.once = true ∧ 0 < t.n_iters)) :
    (∀ e : Event,
      (∀ v, v ∈ t.vars → t.execute (some e) reg v = some e) ∧
      (∀ v, v ∉ t.vars → t.execute (some e) reg v = reg v)) ∧
    t.execute none reg = reg := by
  constructor
  · intro e
    constructor
    · intro v hv
      unfold Tool.execute
      rw [if_neg hskip]
      exact foldl_setEvent_mem e v t.vars reg hv
    · intro v hv
      unfold Tool.execute
      rw [if_neg hskip]
      exact foldl_setEvent_not_mem e v t.vars reg hv
  · unfold Tool.execute
    rw [if_neg hskip]

theorem Tool.execute_publishes_deps_witness :
    Tool.execute ⟨false, 0, [0, 1]⟩ (some 7) (fun _ => none) 0 = some 7 ∧
    Tool.execute ⟨false, 0, [0, 1]⟩ (some 7) (fun _ => none) 2 = none ∧
    Tool.execute ⟨false, 0, [0, 1]⟩ none (fun _ => none) = (fun _ => none) := by
  have h := Tool.execute_publishes_deps ⟨false, 0, [0, 1]⟩ (fun _ => none)
    (by simp)
  exact ⟨(h.1 7).1 0 (by simp), (h.1 7).2 2 (by simp), h.2⟩

/-! ## cbMPIRecv (src/src/CalcServer/MPISync.cpp, lines 1009-1042)

The receiver callback reads the current value of the `recv_offset` scalar
with `get_async`, blockingly receives the element count `n` from the peer,
computes `next_offset = offset + n`, stores a value back into the offset
scalar with `set_async`, and only then completes the offset user event.
`set_async` (its body is not under `src/`) is modelled from the spec as
storing the passed value into the scalar.  The source passes the address
of the local `offset` to `set_async`, and the local `next_offset` is never
used. -/

structure RecvOffsetStep where
  /-- Value stored into the offset variable by `set_async`, before the
  offset user event is completed. -/
  stored : Nat
  /-- The local `next_offset` computed by the callback. -/
  next_offset : Nat
  /-- Whether the offset user event is set to `CL_COMPLETE` afterwards. -/
  offset_event_complete : Bool
deriving DecidableEq

/-- Embedding of the offset handling of `cbMPIRecv`: `offset` is the value
read from the offset scalar, `n` the received element count. -/
def cbMPIRecvOffset (offset n : Nat) : RecvOffsetStep :=
  let next_offset := (offset + n) % 2 ^ 32
  { stored := offset
    next_offset := next_offset
    offset_event_complete := true }

/-- Claim C2: the receiver callback is supposed to advance the offset
scalar by the received count `n` before completing the offset user event,
but at previous offset 0 and received count 1 the stored value is 0, not
0 + 1: the offset scalar is never advanced (the computed `next_offset` is
discarded and the stale `offset` is stored instead). -/
theorem cbMPIRecvOffset_not_advanced :
    (cbMPIRecvOffset 0 1).stored = 0 ∧
    (cbMPIRecvOffset 0 1).next_offset = 1 ∧
    (cbMPIRecvOffset 0 1).stored ≠ 0 + 1 := by decide

/-! ## roundUp (src/src/AuxiliarMethods.cpp, lines 278-286) -/

/-- Embedding of `roundUp`: rounds `n` up to the next multiple of
`divisor`.  The source computes on `unsigned int`, so the final sum
`n - rest + divisor` wraps modulo `2 ^ 32` (the subtraction `n -= rest`
cannot underflow since `rest = n % divisor ≤ n`). -/
def roundUp (n divisor : Nat) : Nat :=
  let rest := n % divisor
  if rest ≠ 0 then (n - rest + divisor) % 2 ^ 32 else n

/-- When `n + L ≤ 2 ^ 32` the 32-bit `roundUp` cannot wrap and the
rounded value divided by `L` is the ceiling of `n / L`. -/
lemma roundUp_div (n L : Nat) (hL : 1 ≤ L) (hw : n + L ≤ 2 ^ 32) :
    roundUp n L / L = (n + L - 1) / L := by
  unfold roundUp
  by_cases h : n % L = 0
  · rw [if_neg (by simpa using h)]
    obtain ⟨q, hq⟩ := Nat.dvd_of_mod_eq_zero h
    subst hq
    rw [Nat.mul_div_cancel_left q (by omega)]
    have h2 : L * q + L - 1 = L * q + (L - 1) := by omega
    rw [h2, Nat.mul_add_div (by omega), Nat.div_eq_of_lt (by omega)]
    omega
  · rw [if_pos (by simpa using h)]
    have hL0 : 0 < L := by omega
    have hr : n % L < L := Nat.mod_lt _ hL0
    have hr1 : 1 ≤ n % L := by omega
    have hq := Nat.div_add_mod n L
    have hnw : (n - n % L + L) % 2 ^ 32 = n - n % L + L :=
      Nat.mod_eq_of_lt (by omega)
    set q := n / L with hqdef
    set r := n % L with hrdef
    set M := L * q with hMdef
    have e1 : n - r + L = M + L := by omega
    have e2 : n + L - 1 = M + (r - 1 + L) := by omega
    rw [hnw, e1, e2, hMdef, Nat.mul_add_div hL0, Nat.mul_add_div hL0,
        Nat.div_self hL0, Nat.add_div_right _ hL0,
        Nat.div_eq_of_lt (by omega : r - 1 < L)]

lemma ceil_div_lt (n L : Nat) (hn : 2 ≤ n) (hL : 2 ≤ L) :
    (n + L - 1) / L < n := by
  rw [Nat.div_lt_iff_lt_mul (by omega : 0 < L)]
  exact Nat.lt_of_lt_of_le (by omega) (add_le_mul hn hL)

lemma ceil_div_pos (n L : Nat) (hn : 1 ≤ n) (hL : 1 ≤ L) :
    1 ≤ (n + L - 1) / L := by
  rw [Nat.le_div_iff_mul_le (by omega : 0 < L)]
  omega

/-! ## Reduction::setup and Reduction::setupOpenCL
(src/src/CalcServer/Reduction.cpp, lines 336-455)

`Reduction::setup` pushes the existing device buffer of the input
variable into `_mems` and the element count into `_n`; `setupOpenCL`
clears `_n` and runs a `while (n > 1)` loop.  Each iteration pushes the
pass input size onto `_n`, the local size onto `_local_work_sizes`,
`roundUp(n, local_size)` onto `_global_work_sizes` and the quotient
`global / local` onto `_number_groups` (the source locals `g` and `ng`
are inlined below), allocates with `clCreateBuffer` one fresh buffer of
`_number_groups.at(i)` elements pushed onto `_mems`, and continues with
`n = _number_groups.at(i)`.  Kernel `i` reads `_mems.at(i)` and writes
`_mems.at(i + 1)`, so the first pass reads the input buffer. -/

/-- A device buffer slot in `_mems`: either the existing buffer of the
input variable (pushed by `Reduction::setup`) or a buffer freshly
allocated by `clCreateBuffer` for the output of one pass, holding
`elems` elements. -/
inductive RBuf where
  | input : RBuf
  | alloc (elems : Nat) : RBuf
deriving DecidableEq

/-- The vectors filled by `Reduction::setupOpenCL`. -/
structure ReductionSetup where
  ns : List Nat
  local_work_sizes : List Nat
  global_work_sizes : List Nat
  number_groups : List Nat
  mems : List RBuf
deriving DecidableEq

/-- Embedding of the `while (n > 1)` loop of `Reduction::setupOpenCL`.
The explicit bound `fuel` renders the while loop total; for any local
work size `L ≥ 2` the pass size strictly decreases, so a bound of `n`
iterations is never reached.  The loop counter `n` is an `unsigned int`
in the source; every value assigned to it is `roundUp(n, L) / L`, which
is already below `2 ^ 32` (the wrap sits inside `roundUp`), so the
assignment truncates nothing and no further reduction is modelled. -/
def setupLoopAux (L : Nat) : Nat → Nat → ReductionSetup
  | 0, _ => ⟨[], [], [], [], []⟩
  | fuel + 1, n =>
    if 1 < n then
      ⟨n :: (setupLoopAux L fuel (roundUp n L / L)).ns,
       L :: (setupLoopAux L fuel (roundUp n L / L)).local_work_sizes,
       roundUp n L :: (setupLoopAux L fuel (roundUp n L / L)).global_work_sizes,
       roundUp n L / L :: (setupLoopAux L fuel (roundUp n L / L)).number_groups,
       RBuf.alloc (roundUp n L / L) :: (setupLoopAux L fuel (roundUp n L / L)).mems⟩
    else ⟨[], [], [], [], []⟩

/-- Embedding of `Reduction::setup` followed by `Reduction::setupOpenCL`
for an input array of `n` elements and a selected local work size `L`. -/
def reductionSetup (n L : Nat) : ReductionSetup :=
  { setupLoopAux L n n with mems := RBuf.input :: (setupLoopAux L n n).mems }

/-- The pass input sizes exactly as claim C3 states them: `n_0 = n`,
`n_{k+1} = ceil(n_k / L)`, stopping after the pass whose output is a
single element.  The bound `fuel`, instantiated with `n`, is never
reached for `L ≥ 2` since the sizes strictly decrease. -/
def claimPassSizesAux (L : Nat) : Nat → Nat → List Nat
  | 0, _ => []
  | fuel + 1, n =>
    n :: (if (n + L - 1) / L = 1 then []
          else claimPassSizesAux L fuel ((n + L - 1) / L))

/-- The pass-size chain of claim C3 for input length `n` and local work
size `L`. -/
def claimPassSizes (L n : Nat) : List Nat := claimPassSizesAux L n n

lemma setupLoopAux_of_le_one (L fuel n : Nat) (h : n ≤ 1) :
    setupLoopAux L fuel n = ⟨[], [], [], [], []⟩ := by
  cases fuel with
  | zero => rfl
  | succ f =>
    simp only [setupLoopAux]
    rw [if_neg (by omega)]

lemma setupLoopAux_succ (L f n : Nat) (h1 : 1 < n) :
    setupLoopAux L (f + 1) n =
      ⟨n :: (setupLoopAux L f (roundUp n L / L)).ns,
       L :: (setupLoopAux L f (roundUp n L / L)).local_work_sizes,
       roundUp n L :: (setupLoopAux L f (roundUp n L / L)).global_work_sizes,
       roundUp n L / L :: (setupLoopAux L f (roundUp n L / L)).number_groups,
       RBuf.alloc (roundUp n L / L) :: (setupLoopAux L f (roundUp n L / L)).mems⟩ := by
  simp only [setupLoopAux]
  rw [if_pos h1]

lemma setupLoopAux_spec (L : Nat) (hL : 2 ≤ L) :
    ∀ n fuel, n ≤ fuel → n + L ≤ 2 ^ 32 →
      (setupLoopAux L fuel n).local_work_sizes
        = List.replicate (setupLoopAux L fuel n).ns.length L ∧
      (setupLoopAux L fuel n).global_work_sizes
        = (setupLoopAux L fuel n).ns.map (fun k => roundUp k L) ∧
      (setupLoopAux L fuel n).number_groups
        = (setupLoopAux L fuel n).ns.map (fun k => (k + L - 1) / L) ∧
      (setupLoopAux L fuel n).mems
        = (setupLoopAux L fuel n).number_groups.map RBuf.alloc := by
  intro n
  induction n using Nat.strong_induction_on with
  | _ n ih =>
    intro fuel hfuel hw
    by_cases h1 : 1 < n
    · cases fuel with
      | zero => omega
      | succ f =>
        have hng_eq : roundUp n L / L = (n + L - 1) / L :=
          roundUp_div n L (by omega) hw
        have hlt : roundUp n L / L < n := by
          rw [hng_eq]; exact ceil_div_lt n L (by omega) hL
        have hle : roundUp n L / L ≤ f :=
          Nat.lt_succ_iff.mp (Nat.lt_of_lt_of_le hlt hfuel)
        obtain ⟨ha, hb, hc, hd⟩ := ih (roundUp n L / L) hlt f hle (by omega)
        rw [hng_eq] at ha hb hc hd
        rw [setupLoopAux_succ L f n h1]
        refine ⟨?_, ?_, ?_, ?_⟩ <;>
          simp [ha, hb, hc, hd, hng_eq, List.replicate_succ]
    · rw [setupLoopAux_of_le_one L fuel n (by omega)]
      exact ⟨rfl, rfl, rfl, rfl⟩

lemma setupLoopAux_ns_eq_claim (L : Nat) (hL : 2 ≤ L) :
    ∀ n f1 f2, 2 ≤ n → n ≤ f1 → n ≤ f2 → n + L ≤ 2 ^ 32 →
      (setupLoopAux L f1 n).ns = claimPassSizesAux L f2 n := by
  intro n
  induction n using Nat.strong_induction_on with
  | _ n ih =>
    intro f1 f2 hn hf1 hf2 hw
    cases f1 with
    | zero => omega
    | succ a =>
      cases f2 with
      | zero => omega
      | succ b =>
        have h1 : 1 < n := by omega
        have hng_eq : roundUp n L / L = (n + L - 1) / L :=
          roundUp_div n L (by omega) hw
        rw [setupLoopAux_succ L a n h1]
        simp only [claimPassSizesAux]
        by_cases hc : (n + L - 1) / L = 1
        · rw [if_pos hc,
              setupLoopAux_of_le_one L a (roundUp n L / L)
                (hng_eq.trans hc).le]
        · rw [if_neg hc]
          have hm1 : 1 ≤ (n + L - 1) / L := ceil_div_pos n L (by omega) (by omega)
          have hm2 : 2 ≤ (n + L - 1) / L := by omega
          have hlt : (n + L - 1) / L < n := ceil_div_lt n L hn hL
          have hlea : (n + L - 1) / L ≤ a :=
            Nat.lt_succ_iff.mp (Nat.lt_of_lt_of_le hlt hf1)
          have hleb : (n + L - 1) / L ≤ b :=
            Nat.lt_succ_iff.mp (Nat.lt_of_lt_of_le hlt hf2)
          show n :: (setupLoopAux L a (roundUp n L / L)).ns
              = n :: claimPassSizesAux L b ((n + L - 1) / L)
          rw [hng_eq]
          exact congrArg (List.cons n) (ih _ hlt a b hm2 hlea hleb (by omega))

lemma claimPassSizesAux_head (L n fuel : Nat) (hn : 1 ≤ n) (hf : n ≤ fuel) :
    (claimPassSizesAux L fuel n).head? = some n := by
  cases fuel with
  | zero => omega
  | succ f => simp only [claimPassSizesAux]; rfl

lemma getLast?_cons_of_some {α : Type} (a : α) (l : List α) (m : α)
    (h : l.getLast? = some m) : (a :: l).getLast? = some m := by
  cases l with
  | nil => simp at h
  | cons b t => rw [List.getLast?_cons_cons]; exact h

lemma getLast?_map_eq {α β : Type} (f : α → β) :
    ∀ l : List α, (l.map f).getLast? = (l.getLast?).map f
  | [] => rfl
  | [a] => rfl
  | a :: b :: l => by
    simp only [List.map_cons, List.getLast?_cons_cons]
    exact getLast?_map_eq f (b :: l)

lemma claimPassSizesAux_getLast (L : Nat) (hL : 2 ≤ L) :
    ∀ n fuel, 1 ≤ n → n ≤ fuel →
      ∃ m, (claimPassSizesAux L fuel n).getLast? = some m ∧
        (m + L - 1) / L = 1 := by
  intro n
  induction n using Nat.strong_induction_on with
  | _ n ih =>
    intro fuel hn hf
    cases fuel with
    | zero => omega
    | succ f =>
      simp only [claimPassSizesAux]
      by_cases hc : (n + L - 1) / L = 1
      · rw [if_pos hc]
        exact ⟨n, rfl, hc⟩
      · rw [if_neg hc]
        have hm1 : 1 ≤ (n + L - 1) / L := ceil_div_pos n L hn (by omega)
        have hn2 : 2 ≤ n := by
          by_contra hcon
          have hone : n = 1 := by omega
          subst hone
          apply hc
          have he : 1 + L - 1 = L := by omega
          rw [he, Nat.div_self (by omega)]
        have hlt : (n + L - 1) / L < n := ceil_div_lt n L hn2 hL
        have hlef : (n + L - 1) / L ≤ f :=
          Nat.lt_succ_iff.mp (Nat.lt_of_lt_of_le hlt hf)
        obtain ⟨m, hm, hm2⟩ := ih _ hlt f hm1 hlef
        exact ⟨m, getLast?_cons_of_some n _ m hm, hm2⟩

/-- Claim C3 counterexamples.  First: the claim quantifies over every
input array length `n ≥ 1`; its pass chain at `n = 1`, `L = 2` is the
single pass `[1]` (whose output `ceil(1 / 2) = 1` is a single element),
but `Reduction::setupOpenCL` builds no pass at all there (the body of
`while (n > 1)` never runs), so no pass has input size `n_0 = n`.
Second: at `n = 2 ^ 32 - 1`, `L = 2` the 32-bit `roundUp` wraps to 0,
so the single pass gets global work size 0 instead of `n` rounded up to
a multiple of `L`, and the pass chain collapses after one pass instead
of following the claimed ceil chain down to a single element. -/
theorem reductionSetup_claim_failures :
    (claimPassSizes 2 1 = [1] ∧ (reductionSetup 1 2).ns = [] ∧
      (reductionSetup 1 2).ns ≠ claimPassSizes 2 1) ∧
    ((reductionSetup (2 ^ 32 - 1) 2).ns = [2 ^ 32 - 1] ∧
      (reductionSetup (2 ^ 32 - 1) 2).global_work_sizes = [0] ∧
      (reductionSetup (2 ^ 32 - 1) 2).ns ≠ claimPassSizes 2 (2 ^ 32 - 1)) := by
  decide

/-- Claim C3 (amended to input array lengths of at least two, with
`n + L ≤ 2 ^ 32` so that the 32-bit `roundUp` cannot wrap; for `n = 1`
the loop body never runs, so no pass is built and no buffer is
allocated, and past the wrap bound the chain collapses): for every
input array length `n ≥ 2` and every selected local work size `L ≥ 2`
with `n + L ≤ 2 ^ 32`, the setup builds exactly the pass input sizes
`n_0 = n`, `n_{k+1} = ceil(n_k / L)`, stopping after the pass whose
output is a single element; every pass uses local size `L` and global
work size `n_k` rounded up to a multiple of `L`; exactly one fresh
device buffer of `ceil(n_k / L)` elements is allocated for the output
of each pass, and the buffer list starts with the existing buffer of
the input variable, which the first pass reads. -/
theorem Reduction.setupOpenCL_pass_structure (n L : Nat)
    (hn : 2 ≤ n) (hL : 2 ≤ L) (hw : n + L ≤ 2 ^ 32) :
    (reductionSetup n L).ns = claimPassSizes L n ∧
    (reductionSetup n L).ns.head? = some n ∧
    (reductionSetup n L).local_work_sizes
      = List.replicate (reductionSetup n L).ns.length L ∧
    (reductionSetup n L).global_work_sizes
      = (reductionSetup n L).ns.map (fun k => roundUp k L) ∧
    (reductionSetup n L).number_groups
      = (reductionSetup n L).ns.map (fun k => (k + L - 1) / L) ∧
    (reductionSetup n L).number_groups.getLast? = some 1 ∧
    (reductionSetup n L).mems
      = RBuf.input :: (reductionSetup n L).number_groups.map RBuf.alloc := by
  obtain ⟨hloc, hglob, hgr, hmem⟩ := setupLoopAux_spec L hL n n le_rfl hw
  have hns : (setupLoopAux L n n).ns = claimPassSizesAux L n n :=
    setupLoopAux_ns_eq_claim L hL n n n hn le_rfl le_rfl hw
  have hproj_ns : (reductionSetup n L).ns = (setupLoopAux L n n).ns := rfl
  have hproj_loc : (reductionSetup n L).local_work_sizes
      = (setupLoopAux L n n).local_work_sizes := rfl
  have hproj_glob : (reductionSetup n L).global_work_sizes
      = (setupLoopAux L n n).global_work_sizes := rfl
  have hproj_gr : (reductionSetup n L).number_groups
      = (setupLoopAux L n n).number_groups := rfl
  have hproj_mems : (reductionSetup n L).mems
      = RBuf.input :: (setupLoopAux L n n).mems := rfl
  refine ⟨?_, ?_, ?_, ?_, ?_, ?_, ?_⟩
  · rw [hproj_ns, hns]; rfl
  · rw [hproj_ns, hns]
    exact claimPassSizesAux_head L n n (by omega) le_rfl
  · rw [hproj_loc, hproj_ns]; exact hloc
  · rw [hproj_glob, hproj_ns]; exact hglob
  · rw [hproj_gr, hproj_ns]; exact hgr
  · obtain ⟨m, hm, hm1⟩ := claimPassSizesAux_getLast L hL n n (by omega) le_rfl
    rw [hproj_gr, hgr, getLast?_map_eq, hns, hm]
    simp [hm1]
  · rw [hproj_mems, hproj_gr, hmem]

theorem Reduction.setupOpenCL_pass_structure_witness :
    2 ≤ 5 ∧ 2 ≤ 2 ∧ 5 + 2 ≤ 2 ^ 32 ∧
    ((reductionSetup 5 2).ns = claimPassSizes 2 5 ∧
     (reductionSetup 5 2).ns.head? = some 5 ∧
     (reductionSetup 5 2).local_work_sizes
       = List.replicate (reductionSetup 5 2).ns.length 2 ∧
     (reductionSetup 5 2).global_work_sizes
       = (reductionSetup 5 2).ns.map (fun k => roundUp k 2) ∧
     (reductionSetup 5 2).number_groups
       = (reductionSetup 5 2).ns.map (fun k => (k + 2 - 1) / 2) ∧
     (reductionSetup 5 2).number_groups.getLast? = some 1 ∧
     (reductionSetup 5 2).mems
       = RBuf.input :: (reductionSetup 5 2).number_groups.map RBuf.alloc) :=
  ⟨by decide, by decide, by decide,
    Reduction.setupOpenCL_pass_structure 5 2 (by decide) (by decide) (by decide)⟩
